import Mathlib

/-!
# Verification of the Torii discrete-event simulation engine (`torii/sim/pysim.py`)

This file is a shallow embedding of the Python simulation kernel in
`src/torii/sim/pysim.py`:

* `Timeline`        embeds `_Timeline` (fields `now`, `deadlines`);
* `SignalState`     embeds `_PySignalState` (fields `signal`, `curr`, `next`,
  `waiters`; the Python back-reference to the shared `pending` set is modelled
  by keeping the pending set in `Simulation` and addressing slots by index);
* `Simulation`      embeds `_PySimulation` (the `signals` dict maps a signal to
  its slot index; here slots are addressed by index directly, so a "signal"
  handle is a slot index and the dict is implicit);
* `Process`         embeds the external process objects (`_pyrtl`, `_pycoro`,
  `_pyclock` are outside the embedded sources): a process carries its
  `runnable`/`passive` flags, and its externally-compiled `run()` body is
  modelled as a list of command lists, one command list per `run()` call;
* `Engine`          embeds `PySimEngine` (`_step`, `advance`) together with
  the attached `_VCDWriter`s.

Python dicts are embedded as insertion-ordered association lists with unique
keys; Python sets of slots as insertion-ordered duplicate-free lists of slot
indices.  Signal values and times are `Nat`.  The unbounded
`while not converged` delta-cycle loop of `PySimEngine._step` is embedded with
explicit fuel, returning `none` when the fuel is exhausted before convergence.
Python `assert` statements (contract checks) are noted where they occur and
are not embedded as failures.
-/

namespace ToriiSim

/-- A signal, as seen by the simulator: identity (`sid`), declared reset
value, bit width, and whether it has a decoder (the decoder function itself
is external display logic). -/
structure Signal where
  sid : Nat
  reset : Nat
  width : Nat := 1
  hasDecoder : Bool := false
deriving DecidableEq

/-! ## `_Timeline` -/

/-- `_Timeline`: current time `now` and the `deadlines` dict mapping a
process id to its registered wake time (`none` is a zero-delay
registration, Python `None`). Insertion-ordered, unique keys. -/
structure Timeline where
  now : Nat
  deadlines : List (Nat × Option Nat)
deriving DecidableEq

/-- `_Timeline.reset`. -/
def Timeline.reset (_t : Timeline) : Timeline :=
  { now := 0, deadlines := [] }

/-- `_Timeline.at(run_at, process)`.  The Python `assert process not in
self.deadlines` is a contract check; re-registration updates in place here
so the function stays total. -/
def Timeline.schedule (t : Timeline) (runAt : Option Nat) (pid : Nat) : Timeline :=
  if t.deadlines.any (fun kv => kv.1 == pid) then
    { t with deadlines := t.deadlines.map (fun kv => if kv.1 == pid then (pid, runAt) else kv) }
  else
    { t with deadlines := t.deadlines ++ [(pid, runAt)] }

/-- `_Timeline.delay(delay_by, process)`: `delay_by = None` registers at
`self.now`, otherwise at `self.now + delay_by`. -/
def Timeline.delay (t : Timeline) (delayBy : Option Nat) (pid : Nat) : Timeline :=
  match delayBy with
  | none => t.schedule (some t.now) pid
  | some d => t.schedule (some (t.now + d)) pid

/-- The scanning loop of `_Timeline.advance`: walks the `deadlines` dict in
order accumulating `nearest_processes` (`acc`) and `nearest_deadline` (`nd`);
a `None` deadline clears any numeric accumulation, wakes at `now` and
**breaks**; a numeric deadline `d ≤ nd` resets (`d < nd`) or extends
(`d = nd`) the accumulation.  (The Python `assert deadline >= self.now` is a
contract check, not embedded.) -/
def Timeline.advanceScan (now : Nat) :
    List (Nat × Option Nat) → List Nat → Option Nat → List Nat × Option Nat
  | [], acc, nd => (acc, nd)
  | (p, none) :: _, acc, nd =>
    ((if nd.isSome then [] else acc) ++ [p], some now)
  | (p, some d) :: rest, acc, nd =>
    match nd with
    | none => Timeline.advanceScan now rest (acc ++ [p]) (some d)
    | some m =>
      if d ≤ m then
        Timeline.advanceScan now rest ((if d < m then [] else acc) ++ [p]) (some d)
      else
        Timeline.advanceScan now rest acc (some m)

/-- `_Timeline.advance`: returns the updated timeline, the list of woken
process ids (whose `runnable` flag the caller sets), and the returned
boolean (`False` iff no process was woken). -/
def Timeline.advance (t : Timeline) : Timeline × List Nat × Bool :=
  let scanned := Timeline.advanceScan t.now t.deadlines [] none
  if scanned.1.isEmpty then
    (t, [], false)
  else
    ({ now := scanned.2.getD t.now,
       deadlines := t.deadlines.filter (fun kv => !scanned.1.contains kv.1) },
     scanned.1, true)

/-! ## `_PySignalState` -/

/-- `_PySignalState`: the per-slot simulation state.  `waiters` is the dict
from process id to optional trigger value. -/
structure SignalState where
  signal : Signal
  curr : Nat
  next : Nat
  waiters : List (Nat × Option Nat)
deriving DecidableEq

/-- `_PySignalState.set(value)` on the slot record alone: returns the
updated slot and whether the slot must be added to the pending set. -/
def SignalState.set (s : SignalState) (value : Nat) : SignalState × Bool :=
  if s.next = value then (s, false)
  else ({ s with next := value }, true)

/-- `_PySignalState.commit()`: returns the updated slot, the list of woken
process ids (waiters whose trigger is `None` or equals the new value), and
the returned boolean `awoken_any`. -/
def SignalState.commit (s : SignalState) : SignalState × List Nat × Bool :=
  if s.curr = s.next then (s, [], false)
  else
    let s' := { s with curr := s.next }
    let awoken := (s'.waiters.filter
      (fun w => w.2 == none || w.2 == some s'.curr)).map Prod.fst
    (s', awoken, !awoken.isEmpty)

/-! ## `_PySimulation` -/

/-- `_PySimulation`: the timeline, the slot table, and the pending set
(slot indices, insertion-ordered, duplicate-free). -/
structure Simulation where
  timeline : Timeline
  slots : List SignalState
  pending : List Nat
deriving DecidableEq

/-- Python `set.add` on an insertion-ordered duplicate-free list. -/
def setAdd (l : List Nat) (x : Nat) : List Nat :=
  if x ∈ l then l else l ++ [x]

/-- `slot.set(value)` performed through the simulation (the Python slot
holds a reference to the shared `pending` set): a no-op when
`value == slot.next`, otherwise it stores `next` and adds the slot index to
the pending set. -/
def Simulation.setSlot (st : Simulation) (i : Nat) (value : Nat) : Simulation :=
  match st.slots[i]? with
  | none => st
  | some s =>
    if s.next = value then st
    else
      { st with
        slots := st.slots.set i ({ s with next := value }),
        pending := setAdd st.pending i }

/-- `_PySimulation.add_trigger(process, signal, trigger)` (the `assert`
that an existing registration carries the same trigger is a contract
check): stores `waiters[process] = trigger` on the slot. -/
def Simulation.addTrigger (st : Simulation) (pid : Nat) (i : Nat) (trigger : Option Nat) :
    Simulation :=
  match st.slots[i]? with
  | none => st
  | some s =>
    let waiters :=
      if s.waiters.any (fun kv => kv.1 == pid) then
        s.waiters.map (fun kv => if kv.1 == pid then (pid, trigger) else kv)
      else
        s.waiters ++ [(pid, trigger)]
    { st with slots := st.slots.set i ({ s with waiters := waiters }) }

/-- `_PySimulation.remove_trigger(process, signal)` (the membership `assert`
is a contract check): deletes the waiter entry. -/
def Simulation.removeTrigger (st : Simulation) (pid : Nat) (i : Nat) : Simulation :=
  match st.slots[i]? with
  | none => st
  | some s =>
    { st with slots := st.slots.set i ({ s with waiters := s.waiters.filter (fun kv => !(kv.1 == pid)) }) }

/-- `_PySimulation.wait_interval(process, interval)`. -/
def Simulation.waitInterval (st : Simulation) (pid : Nat) (interval : Option Nat) : Simulation :=
  { st with timeline := st.timeline.delay interval pid }

/-- The loop of `_PySimulation.commit`: commits each pending slot in order,
collecting all woken process ids and the `converged` flag (initially true,
set to false whenever a slot's `commit()` returned true). -/
def Simulation.commitLoop : List SignalState → List Nat → List SignalState × List Nat × Bool
  | slots, [] => (slots, [], true)
  | slots, i :: rest =>
    match slots[i]? with
    | none => Simulation.commitLoop slots rest
    | some s =>
      let r := s.commit
      let rec' := Simulation.commitLoop (slots.set i r.1) rest
      (rec'.1, r.2.1 ++ rec'.2.1, rec'.2.2 && !r.2.2)

/-- `_PySimulation.commit(changed)`: commits every pending slot, clears the
pending set, and returns (in order) the new simulation state, the woken
process ids, the returned `converged` boolean, and the contribution
`changed.update(self.pending)` makes to a caller-supplied changed set
(namely the pending set as it was before clearing). -/
def Simulation.commit (st : Simulation) : Simulation × List Nat × Bool × List Nat :=
  let r := Simulation.commitLoop st.slots st.pending
  ({ st with slots := r.1, pending := [] }, r.2.1, r.2.2, st.pending)

/-- `_PySimulation.reset()`: resets the timeline, restores every slot's
`curr`/`next` to the signal's reset value (the Python loop over the
`signals` dict touches exactly the allocated slots), and clears the
pending set.  Waiter registrations are untouched. -/
def Simulation.reset (st : Simulation) : Simulation :=
  { timeline := st.timeline.reset,
    slots := st.slots.map (fun s =>
      { s with curr := s.signal.reset, next := s.signal.reset }),
    pending := [] }

/-! ## Processes

The process objects executed by the engine are produced outside
`pysim.py` (`_FragmentCompiler`, `PyCoroProcess`, `PyClockProcess`).  For the
engine they are opaque: a `runnable` flag, a `passive` flag, and a `run()`
method that reads committed values and calls `set` / `add_trigger` /
`remove_trigger` / `wait_interval` on the simulation (a coroutine process may
also change its own passivity).  A process body is modelled as a list of
command lists: the k-th `run()` call executes the k-th command list. -/

/-- One effect a `run()` body can perform on the simulation. -/
inductive Cmd where
  | setSig : Nat → Nat → Cmd
  | addTrigger : Nat → Option Nat → Cmd
  | removeTrigger : Nat → Cmd
  | waitInterval : Option Nat → Cmd
  | setPassive : Bool → Cmd
deriving DecidableEq

/-- A process as the engine sees it. -/
structure Process where
  runnable : Bool
  passive : Bool
  prog : List (List Cmd)
deriving DecidableEq

/-- Execute one command issued by process `pid`. -/
def execCmd (pid : Nat) (sp : Simulation × List Process) : Cmd → Simulation × List Process
  | .setSig i v => (sp.1.setSlot i v, sp.2)
  | .addTrigger i tr => (sp.1.addTrigger pid i tr, sp.2)
  | .removeTrigger i => (sp.1.removeTrigger pid i, sp.2)
  | .waitInterval d => (sp.1.waitInterval pid d, sp.2)
  | .setPassive b =>
    (sp.1, sp.2.mapIdx (fun j p => if j = pid then { p with passive := b } else p))

/-- Set `runnable := True` on every process in `pids` (how `_Timeline.advance`
and `_PySignalState.commit` wake processes). -/
def wakeProcs (procs : List Process) (pids : List Nat) : List Process :=
  procs.mapIdx (fun j p => if j ∈ pids then { p with runnable := true } else p)

/-- One iteration of the eval loop body of `PySimEngine._step` for process
`pid`: `if process.runnable: process.runnable = False; process.run()`. -/
def runProc (sp : Simulation × List Process) (pid : Nat) : Simulation × List Process :=
  match sp.2[pid]? with
  | none => sp
  | some p =>
    if p.runnable then
      (p.prog.headD []).foldl (execCmd pid)
        (sp.1, sp.2.set pid ({ p with runnable := false, prog := p.prog.tail }))
    else sp

/-- The eval phase of `PySimEngine._step`: run every runnable process once,
clearing its flag first.  (Python iterates the `self._processes` set; the
iteration order is fixed here as index order.) -/
def evalPhase (sp : Simulation × List Process) : Simulation × List Process :=
  (List.range sp.2.length).foldl runProc sp

/-! ## `_VCDWriter` -/

/-- An attached `_VCDWriter`, reduced to what the engine observes: the set of
signal ids with a registered variable (`vcd_vars`) and the sequence of emitted
value-change records `(timestamp, signal id, value)` (the `pyvcd` backend and
the GTKW save file are external sinks). -/
structure Writer where
  vars : List Nat
  records : List (Nat × Nat × Nat)
deriving DecidableEq

/-- `_VCDWriter.update(timestamp, signal, value)`: appends one record when
the signal has a registered variable, otherwise does nothing.  (Decoder
rendering via `decode_to_vcd` is external display logic; the raw committed
value is recorded.) -/
def Writer.update (wr : Writer) (timestamp : Nat) (sig : Signal) (value : Nat) : Writer :=
  if sig.sid ∈ wr.vars then
    { wr with records := wr.records ++ [(timestamp, sig.sid, value)] }
  else wr

/-- The per-writer update loop at the end of `PySimEngine._step`:
`for signal_state in changed: vcd_writer.update(now, ss.signal, ss.curr)`. -/
def Writer.updateAll (wr : Writer) (sim : Simulation) (changed : List Nat) : Writer :=
  changed.foldl (fun wr i =>
    match sim.slots[i]? with
    | some s => wr.update sim.timeline.now s.signal s.curr
    | none => wr) wr

/-- Whether a string contains one of the whitespace characters matched by the
`search(r'[ \t\r\n]', var_name)` check in `_VCDWriter.__init__`. -/
def hasWhitespace (s : String) : Bool :=
  s.data.any (fun c => c == ' ' || c == '\t' || c == '\r' || c == '\n')

/-- The whitespace scan `_VCDWriter.__init__` performs over the alias names
of one signal (each name is a `(*var_scope, var_name)` tuple, modelled as
scope-part list plus leaf name): returns the first error message, if any. -/
def checkNames : List (List String × String) → Option String
  | [] => none
  | (scope, name) :: rest =>
    if hasWhitespace name then
      some (".".intercalate scope ++ "." ++ name ++ " contains a whitespace character")
    else checkNames rest

/-- The registration phase of `_VCDWriter.__init__` over the extracted
`(signal, alias names)` table: every leaf name is checked for whitespace
(raising `NameError` on the first hit) and each signal gains one registered
variable; the writer starts with no emitted records.  (The `pyvcd`
`register_var` / `register_alias` calls and the `$k` collision suffixes only
shape external output names.) -/
def vcdWriterInit : List (Signal × List (List String × String)) → Except String Writer
  | [] => .ok { vars := [], records := [] }
  | (sig, names) :: rest =>
    match checkNames names with
    | some e => .error e
    | none =>
      match vcdWriterInit rest with
      | .error e => .error e
      | .ok w => .ok { w with vars := sig.sid :: w.vars }

/-! ## `PySimEngine` -/

/-- `PySimEngine`: simulation state, processes, attached VCD writers. -/
structure Engine where
  sim : Simulation
  procs : List Process
  writers : List Writer
deriving DecidableEq

/-- The `while not converged` delta-cycle loop of `PySimEngine._step`, with
fuel: eval phase, then commit; the commit's pending set is merged into the
caller's `changed` set only when one is being tracked
(`changed = set() if self._vcd_writers else None`); the loop stops when
`commit` returns `True`. -/
def stepLoop (track : Bool) :
    Nat → Simulation × List Process → List Nat →
    Option ((Simulation × List Process) × List Nat)
  | 0, _, _ => none
  | fuel + 1, sp, changedAcc =>
    let sp1 := evalPhase sp
    let r := sp1.1.commit
    let sp2 := (r.1, wakeProcs sp1.2 r.2.1)
    let changedAcc' := if track then r.2.2.2.foldl setAdd changedAcc else changedAcc
    if r.2.2.1 then some (sp2, changedAcc')
    else stepLoop track fuel sp2 changedAcc'

/-- `PySimEngine._step()`: run the delta-cycle loop to convergence, then let
every attached writer record each changed slot at the current time. -/
def Engine.step (fuel : Nat) (w : Engine) : Option Engine :=
  let track := !w.writers.isEmpty
  match stepLoop track fuel (w.sim, w.procs) [] with
  | none => none
  | some (sp, changed) =>
    some { sim := sp.1, procs := sp.2,
           writers := w.writers.map (fun wr => wr.updateAll sp.1 changed) }

/-- `PySimEngine.advance()`: `self._step(); self._timeline.advance(); return
any(not process.passive for process in self._processes)`.  The result of
`_Timeline.advance` is discarded. -/
def Engine.advance (fuel : Nat) (w : Engine) : Option (Engine × Bool) :=
  match w.step fuel with
  | none => none
  | some w1 =>
    let ta := w1.sim.timeline.advance
    let w2 : Engine :=
      { w1 with sim := { w1.sim with timeline := ta.1 }, procs := wakeProcs w1.procs ta.2.1 }
    some (w2, w2.procs.any (fun p => !p.passive))

/-- `n` successive `advance()` calls, collecting the returned booleans. -/
def Engine.advanceN (fuel : Nat) : Nat → Engine → Option (Engine × List Bool)
  | 0, w => some (w, [])
  | n + 1, w =>
    (w.advance fuel).bind (fun r =>
      (Engine.advanceN fuel n r.1).map (fun r2 => (r2.1, r.2 :: r2.2)))

/-! ## `_NameExtractor` -/

/-- Python string conversion of an optional instance name as it appears in
the f-string `f'U${subfragment_name}'` (`None` renders as `"None"`). -/
def pythonOptStr : Option String → String
  | none => "None"
  | some s => s

/-- The subfragment scope-name computation in `_NameExtractor.__call__`:
`enumerate` supplies `subfragment_index`, and a `None` instance name is
replaced by `f'U${subfragment_name}'` — evaluated while `subfragment_name`
is still `None`. -/
def subfragmentScopeName (_subfragmentIndex : Nat) (name? : Option String) : String :=
  match name? with
  | none => "U$" ++ pythonOptStr none
  | some n => n

/-- The hierarchy tuple passed to the recursive `_NameExtractor` call for a
subfragment: `(*hierarchy, subfragment_name)`. -/
def childHierarchy (hierarchy : List String) (subfragmentIndex : Nat)
    (name? : Option String) : List String :=
  hierarchy ++ [subfragmentScopeName subfragmentIndex name?]

/-! ## Derived observations used to state the properties -/

/-- A sequence of `set` calls applied in order. -/
def applyWrites (st : Simulation) (ws : List (Nat × Nat)) : Simulation :=
  ws.foldl (fun st w => st.setSlot w.1 w.2) st

/-- Whether `set(j, v)` issued in state `st` actually changes slot `j`'s
`next` value (the condition under which the slot joins the pending set). -/
def slotWriteEffective (st : Simulation) (j v : Nat) : Bool :=
  match st.slots[j]? with
  | some s => decide (s.next ≠ v)
  | none => false

/-- Whether a write sequence starting from `st` contains at least one write
to slot `i` that changes its `next` value at the moment it executes. -/
def hasEffectiveWrite (i : Nat) : Simulation → List (Nat × Nat) → Bool
  | _, [] => false
  | st, (j, v) :: ws =>
    ((j == i) && slotWriteEffective st j v) || hasEffectiveWrite i (st.setSlot j v) ws

/-- The minimum numeric deadline of a `deadlines` dict (zero-delay `none`
entries are ignored); `none` when no numeric deadline exists. -/
def minDeadline : List (Nat × Option Nat) → Option Nat
  | [] => none
  | (_, d) :: rest =>
    match d, minDeadline rest with
    | none, r => r
    | some dv, none => some dv
    | some dv, some m => some (min dv m)

/-- The committed (`curr`) value of slot `i`, if the slot exists. -/
def currAt (sim : Simulation) (i : Nat) : Option Nat :=
  (sim.slots[i]?).map (fun s => s.curr)

/-- The value-change record `_VCDWriter.update` emits for changed slot `i`
(at the current time, with the slot's committed value), given the writer's
registered signal ids: `none` when the slot is missing or its signal has no
registered variable. -/
def recordFor (sim : Simulation) (vars : List Nat) (i : Nat) : Option (Nat × Nat × Nat) :=
  match sim.slots[i]? with
  | some s =>
    if s.signal.sid ∈ vars then some (sim.timeline.now, s.signal.sid, s.curr) else none
  | none => none

/-! ## Concrete fixtures for counterexamples and witnesses -/

/-- A one-slot simulation whose only slot is clean (`curr = next = 0`) and
carries one any-change waiter (process 0), with the slot pending a change to
`1`. -/
def exSimPendingWaiter : Simulation :=
  { timeline := { now := 0, deadlines := [] },
    slots := [{ signal := { sid := 0, reset := 0 }, curr := 0, next := 1,
                waiters := [(0, none)] }],
    pending := [0] }

/-- A one-slot simulation with a clean slot and no waiters. -/
def exSimClean : Simulation :=
  { timeline := { now := 0, deadlines := [] },
    slots := [{ signal := { sid := 0, reset := 0 }, curr := 0, next := 0,
                waiters := [] }],
    pending := [] }

/-- A timeline holding two zero-delay registrations (processes 0 and 1). -/
def exTimelineTwoSettles : Timeline :=
  { now := 0, deadlines := [(0, none), (1, none)] }

/-- An engine with two passive, non-runnable processes and two distinct
future deadlines on the timeline. -/
def exEnginePassive : Engine :=
  { sim := { timeline := { now := 0, deadlines := [(0, some 5), (1, some 10)] },
             slots := [], pending := [] },
    procs := [{ runnable := false, passive := true, prog := [] },
              { runnable := false, passive := true, prog := [] }],
    writers := [] }

/-- An engine with one registered one-slot writer and a runnable process
that writes `1` and then writes `0` back to the slot within a single eval
phase. -/
def exEngineWriteBack : Engine :=
  { sim := exSimClean,
    procs := [{ runnable := true, passive := true,
                prog := [[Cmd.setSig 0 1, Cmd.setSig 0 0]] }],
    writers := [{ vars := [0], records := [] }] }

/-- The engine `exEngineWriteBack` after one `_step()`. -/
def exEngineWriteBackStepped : Engine :=
  { sim := exSimClean,
    procs := [{ runnable := false, passive := true, prog := [] }],
    writers := [{ vars := [0], records := [(0, 0, 0)] }] }

/-! # Shared lemmas -/

theorem mem_setAdd (l : List Nat) (x i : Nat) : i ∈ setAdd l x ↔ i ∈ l ∨ i = x := by
  unfold setAdd
  by_cases h : x ∈ l
  · simp only [if_pos h]
    exact ⟨Or.inl, fun hh => hh.elim id (fun he => he ▸ h)⟩
  · simp [if_neg h, List.mem_append]

theorem mem_pending_setSlot (st : Simulation) (j v i : Nat) :
    i ∈ (st.setSlot j v).pending
      ↔ i ∈ st.pending ∨ (j = i ∧ slotWriteEffective st j v = true) := by
  unfold Simulation.setSlot slotWriteEffective
  cases h : st.slots[j]? with
  | none => simp
  | some s =>
    by_cases hnv : s.next = v
    · simp [hnv]
    · simp only [if_neg hnv, mem_setAdd, decide_eq_true_eq]
      constructor
      · rintro (hm | he)
        · exact Or.inl hm
        · exact Or.inr ⟨he.symm, hnv⟩
      · rintro (hm | ⟨hji, _⟩)
        · exact Or.inl hm
        · exact Or.inr hji.symm

/-! # Claim theorems -/

/-- C10: during hierarchical name derivation, a subfragment whose instance
name is `None` gets the constant placeholder `'U$None'` appended to the
hierarchy path, independent of its position index — all anonymous
subfragments of one parent share one scope name. -/
theorem c10_anonymous_scope_name (hierarchy : List String) (i j : Nat) :
    childHierarchy hierarchy i none = hierarchy ++ ["U$None"]
    ∧ subfragmentScopeName i none = subfragmentScopeName j none := by
  constructor
  · show hierarchy ++ ["U$" ++ pythonOptStr none] = hierarchy ++ ["U$None"]
    have : "U$" ++ pythonOptStr none = "U$None" := by decide
    rw [this]
  · rfl

/-- C7: after `reset()` the timeline's `now` is `0` with no registrations
left, every slot's `curr`/`next` equal the signal's declared reset value,
the pending set is empty — and the slot's waiter registrations (and its
signal) are untouched, as the returned slot record shows. -/
theorem c7_reset (st : Simulation) (i : Nat) (s₀ : SignalState)
    (h : st.slots[i]? = some s₀) :
    (st.reset).timeline.now = 0
    ∧ (st.reset).timeline.deadlines = []
    ∧ (st.reset).pending = []
    ∧ (st.reset).slots[i]?
        = some ({ s₀ with curr := s₀.signal.reset, next := s₀.signal.reset }) := by
  refine ⟨rfl, rfl, rfl, ?_⟩
  show (st.slots.map _)[i]? = _
  rw [List.getElem?_map, h]
  rfl

theorem c7_reset_witness :
    (Simulation.reset exSimPendingWaiter).timeline.now = 0
    ∧ (Simulation.reset exSimPendingWaiter).pending = []
    ∧ (Simulation.reset exSimPendingWaiter).slots[0]?
        = some { signal := { sid := 0, reset := 0 }, curr := 0, next := 0,
                 waiters := [(0, none)] } := by
  have h := c7_reset exSimPendingWaiter 0
    { signal := { sid := 0, reset := 0 }, curr := 0, next := 1, waiters := [(0, none)] }
    (by decide)
  exact ⟨h.1, h.2.2.1, h.2.2.2⟩

/-- C5 counterexample: from a clean one-slot simulation, the write sequence
`set(0, 1); set(0, 0)` leaves the slot in the pending set although at the
time of (and after) the last write its `next` equals its `curr` — refuting
"slot is in the pending set iff `next != current` at the time of the last
write". -/
theorem c5_counterexample :
    0 ∈ (applyWrites exSimClean [(0, 1), (0, 0)]).pending
    ∧ ((applyWrites exSimClean [(0, 1), (0, 0)]).slots[0]?).map
        (fun s => decide (s.next = s.curr)) = some true := by decide

/-- C5 (amended): a slot is in the pending set after a sequence of `set()`
calls iff it was already pending or at least one write in the sequence
changed the slot's `next` value at the moment it executed; a later write
that restores `next = curr` does not remove the slot from the pending
set. -/
theorem c5_amended (st : Simulation) (ws : List (Nat × Nat)) (i : Nat) :
    i ∈ (applyWrites st ws).pending
      ↔ i ∈ st.pending ∨ hasEffectiveWrite i st ws = true := by
  induction ws generalizing st with
  | nil => simp [applyWrites, hasEffectiveWrite]
  | cons w ws ih =>
    obtain ⟨j, v⟩ := w
    have happ : applyWrites st ((j, v) :: ws) = applyWrites (st.setSlot j v) ws := rfl
    have heff : hasEffectiveWrite i st ((j, v) :: ws)
        = (((j == i) && slotWriteEffective st j v) || hasEffectiveWrite i (st.setSlot j v) ws) :=
      rfl
    rw [happ, ih, mem_pending_setSlot, heff]
    simp only [Bool.or_eq_true, Bool.and_eq_true, beq_iff_eq]
    tauto

/-- C6: `set(slot, value)` is idempotent — when the value equals the slot's
`next` it is a no-op (first conjunct, in full generality); a repeated
`set(i, v)` is absorbed (second conjunct); after the double write the slot
appears exactly once in the pending set, so the following commit processes
it once, committing `curr := v` as a single change notification (the slot is
marked changed: `curr ≠ next` before the commit). -/
theorem c6_set_idempotent (st : Simulation) (i v : Nat) (s : SignalState)
    (hs : st.slots[i]? = some s) (hclean : s.next = s.curr) (hv : v ≠ s.curr)
    (hnd : st.pending.Nodup) :
    (∀ (st2 : Simulation) (i2 v2 : Nat) (s2 : SignalState),
        st2.slots[i2]? = some s2 → s2.next = v2 → st2.setSlot i2 v2 = st2)
    ∧ Simulation.setSlot (st.setSlot i v) i v = st.setSlot i v
    ∧ (st.setSlot i v).pending.count i = 1
    ∧ ((st.setSlot i v).slots[i]?).map
        (fun sl => ((sl.commit).1.curr, decide (sl.curr ≠ sl.next)))
      = some (v, true) := by
  have hnv : ¬ s.next = v := fun hh => hv (hclean ▸ hh.symm)
  have hnoop : ∀ (st2 : Simulation) (i2 v2 : Nat) (s2 : SignalState),
      st2.slots[i2]? = some s2 → s2.next = v2 → st2.setSlot i2 v2 = st2 := by
    intro st2 i2 v2 s2 hs2 hnext
    unfold Simulation.setSlot
    rw [hs2]
    simp [hnext]
  have hset : st.setSlot i v
      = { st with slots := st.slots.set i ({ s with next := v }),
                  pending := setAdd st.pending i } := by
    unfold Simulation.setSlot
    rw [hs]
    simp [hnv]
  have hslots : (st.setSlot i v).slots[i]? = some ({ s with next := v }) := by
    rw [hset]
    show (st.slots.set i _)[i]? = _
    rw [List.getElem?_set_self', hs]
    rfl
  refine ⟨hnoop, ?_, ?_, ?_⟩
  · exact hnoop (st.setSlot i v) i v ({ s with next := v }) hslots rfl
  · rw [hset]
    show (setAdd st.pending i).count i = 1
    unfold setAdd
    by_cases hmem : i ∈ st.pending
    · rw [if_pos hmem]
      exact List.count_eq_one_of_mem hnd hmem
    · rw [if_neg hmem, List.count_append]
      rw [List.count_eq_zero_of_not_mem hmem]
      simp
  · rw [hslots]
    have hcv : ¬ (s.curr = v) := fun hh => hv hh.symm
    simp [SignalState.commit, hcv]

theorem c6_set_idempotent_witness :
    Simulation.setSlot (Simulation.setSlot exSimClean 0 1) 0 1
      = Simulation.setSlot exSimClean 0 1
    ∧ (Simulation.setSlot exSimClean 0 1).pending.count 0 = 1 := by
  have h := c6_set_idempotent exSimClean 0 1
    { signal := { sid := 0, reset := 0 }, curr := 0, next := 0, waiters := [] }
    (by decide) (by decide) (by decide) (by decide)
  exact ⟨h.2.1, h.2.2.1⟩

/-- C2 counterexample: an engine with only passive processes but a future
event still scheduled after the step: `advance()` returns `False`, although
the claimed condition "a non-passive process still exists or a future event
is still scheduled" is `True` — refuting the claimed return value. -/
theorem c2_counterexample :
    (Engine.advance 1 exEnginePassive).map (fun r => r.2) = some false
    ∧ (Engine.advance 1 exEnginePassive).map
        (fun r => r.1.procs.any (fun p => !p.passive) || !r.1.sim.timeline.deadlines.isEmpty)
      = some true := by decide

/-- C2 (amended): the engine's `advance()` returns true iff a non-passive
process exists after the step; the result of `_Timeline.advance()` is
discarded, so pending future events alone do not make it return true. -/
theorem c2_amended (fuel : Nat) (w : Engine) (r : Engine × Bool)
    (h : Engine.advance fuel w = some r) :
    r.2 = r.1.procs.any (fun p => !p.passive) := by
  unfold Engine.advance at h
  cases hstep : Engine.step fuel w with
  | none => rw [hstep] at h; cases h
  | some w1 =>
    rw [hstep] at h
    simp only [Option.some.injEq] at h
    rw [← h]

theorem c2_amended_witness :
    ∃ r, Engine.advance 1 exEnginePassive = some r
      ∧ r.2 = r.1.procs.any (fun p => !p.passive) := by
  cases hr : Engine.advance 1 exEnginePassive with
  | none => exact absurd hr (by decide)
  | some r => exact ⟨r, rfl, c2_amended 1 exEnginePassive r hr⟩

/-! ## Lemmas about `_PySimulation.commit` -/

theorem isEmptyAppend {α : Type} (l₁ l₂ : List α) :
    (l₁ ++ l₂).isEmpty = (l₁.isEmpty && l₂.isEmpty) := by
  cases l₁ <;> simp

theorem slotCommit_fst (s : SignalState) : (s.commit).1 = { s with curr := s.next } := by
  unfold SignalState.commit
  by_cases h : s.curr = s.next
  · simp only [if_pos h]
    cases s with
    | mk sig c n w => simp_all
  · simp [h]

theorem slotCommit_awokenAny (s : SignalState) :
    (s.commit).2.2 = !(s.commit).2.1.isEmpty := by
  unfold SignalState.commit
  by_cases h : s.curr = s.next <;> simp [h]

theorem commitLoop_cons (slots : List SignalState) (i : Nat) (rest : List Nat) :
    Simulation.commitLoop slots (i :: rest)
      = match slots[i]? with
        | none => Simulation.commitLoop slots rest
        | some s =>
          ((Simulation.commitLoop (slots.set i (s.commit).1) rest).1,
           (s.commit).2.1 ++ (Simulation.commitLoop (slots.set i (s.commit).1) rest).2.1,
           (Simulation.commitLoop (slots.set i (s.commit).1) rest).2.2 && !(s.commit).2.2) :=
  rfl

theorem commitLoop_converged (l : List Nat) :
    ∀ slots : List SignalState,
      (Simulation.commitLoop slots l).2.2 = (Simulation.commitLoop slots l).2.1.isEmpty := by
  induction l with
  | nil => intro slots; rfl
  | cons i rest ih =>
    intro slots
    rw [commitLoop_cons]
    cases h : slots[i]? with
    | none => exact ih slots
    | some s =>
      simp only
      rw [ih (slots.set i (s.commit).1), slotCommit_awokenAny, isEmptyAppend]
      cases hh : (s.commit).2.1.isEmpty <;>
        cases hh2 : (Simulation.commitLoop (slots.set i (s.commit).1) rest).2.1.isEmpty <;>
        simp [hh, hh2]

theorem commitLoop_slots_not_mem (l : List Nat) :
    ∀ (slots : List SignalState) (j : Nat), j ∉ l →
      (Simulation.commitLoop slots l).1[j]? = slots[j]? := by
  induction l with
  | nil => intro slots j _; rfl
  | cons i rest ih =>
    intro slots j hj
    have hji : j ≠ i := fun h => hj (h ▸ List.mem_cons_self i rest)
    have hjr : j ∉ rest := fun h => hj (List.mem_cons_of_mem _ h)
    rw [commitLoop_cons]
    cases h : slots[i]? with
    | none => exact ih slots j hjr
    | some s =>
      simp only
      rw [ih _ j hjr]
      exact List.getElem?_set_ne (Ne.symm hji)

theorem commitLoop_slots_mem (l : List Nat) :
    ∀ (slots : List SignalState) (i : Nat) (s : SignalState),
      l.Nodup → i ∈ l → slots[i]? = some s →
      (Simulation.commitLoop slots l).1[i]? = some (s.commit).1 := by
  induction l with
  | nil => intro _ _ _ _ hi _; cases hi
  | cons j rest ih =>
    intro slots i s hnd hi hs
    rcases List.mem_cons.mp hi with heq | hmem
    · subst heq
      rw [commitLoop_cons, hs]
      simp only
      have hnot : i ∉ rest := (List.nodup_cons.mp hnd).1
      rw [commitLoop_slots_not_mem rest _ i hnot, List.getElem?_set_self', hs]
      rfl
    · have hne : i ≠ j := by
        rintro rfl
        exact (List.nodup_cons.mp hnd).1 hmem
      rw [commitLoop_cons]
      cases h : slots[j]? with
      | none => exact ih slots i s (List.Nodup.of_cons hnd) hmem hs
      | some sj =>
        simp only
        refine ih _ i s (List.Nodup.of_cons hnd) hmem ?_
        rw [List.getElem?_set_ne (Ne.symm hne)]
        exact hs

theorem flatMapCongr {l : List Nat} {f g : Nat → List Nat}
    (h : ∀ a ∈ l, f a = g a) : l.flatMap f = l.flatMap g := by
  induction l with
  | nil => rfl
  | cons x xs ih =>
    simp only [List.flatMap_cons]
    rw [h x (List.mem_cons_self x xs), ih (fun a ha => h a (List.mem_cons_of_mem _ ha))]

theorem commitLoop_awoken (l : List Nat) :
    ∀ slots : List SignalState, l.Nodup →
      (Simulation.commitLoop slots l).2.1
        = l.flatMap (fun i => match slots[i]? with
            | none => []
            | some s => (s.commit).2.1) := by
  induction l with
  | nil => intro _ _; rfl
  | cons i rest ih =>
    intro slots hnd
    rw [commitLoop_cons, List.flatMap_cons]
    cases h : slots[i]? with
    | none =>
      simp only
      rw [ih slots (List.Nodup.of_cons hnd)]
      rfl
    | some s =>
      simp only
      congr 1
      rw [ih (slots.set i (s.commit).1) (List.Nodup.of_cons hnd)]
      refine flatMapCongr (fun a ha => ?_)
      have hne : a ≠ i := fun heq => (List.nodup_cons.mp hnd).1 (heq ▸ ha)
      rw [List.getElem?_set_ne (Ne.symm hne)]

theorem slotCommit_awoken_mem (s : SignalState) (p : Nat) :
    p ∈ (s.commit).2.1
      ↔ s.curr ≠ s.next ∧ ∃ tr, (p, tr) ∈ s.waiters ∧ (tr = none ∨ tr = some s.next) := by
  unfold SignalState.commit
  by_cases h : s.curr = s.next
  · simp [h]
  · simp only [if_neg h, List.mem_map, List.mem_filter]
    constructor
    · rintro ⟨⟨q, tr⟩, ⟨hmem, hpred⟩, hfst⟩
      cases hfst
      refine ⟨h, tr, hmem, ?_⟩
      simpa using hpred
    · rintro ⟨_, tr, hmem, htr⟩
      refine ⟨(p, tr), ⟨hmem, ?_⟩, rfl⟩
      simpa using htr

/-- C1 counterexample: a pending slot with one any-change waiter: the commit
changes the slot (`curr` goes from 0 to 1), yet `commit()` returns `False` —
refuting "its return value is whether any slot changed, with false meaning a
fixed point" (the code returns the `converged` flag: whether **no** waiter
was awoken). -/
theorem c1_counterexample :
    (Simulation.commit exSimPendingWaiter).2.2.1 = false
    ∧ ((Simulation.commit exSimPendingWaiter).1.slots[0]?).map (fun s => s.curr) = some 1
    ∧ (exSimPendingWaiter.slots[0]?).map (fun s => s.curr) = some 0 := by decide

/-- C1 (amended): `commit()` sets `curr := next` on every pending slot,
wakes exactly the waiters of changed pending slots whose trigger is none or
equals the new value, leaves non-pending slots untouched, clears the pending
set (its previous contents being what a tracked `changed` set receives), and
returns `True` iff **no waiter was awoken** (the `converged` flag — not
"whether any slot changed"); this returned flag being `True` is exactly the
condition under which the engine's delta-cycle loop stops after an
eval/commit iteration. -/
theorem c1_amended (st : Simulation) (hnd : st.pending.Nodup) :
    (st.commit).1.pending = []
    ∧ (st.commit).2.2.2 = st.pending
    ∧ (st.commit).2.2.1 = (st.commit).2.1.isEmpty
    ∧ (∀ i s, i ∈ st.pending → st.slots[i]? = some s →
        (st.commit).1.slots[i]? = some ({ s with curr := s.next }))
    ∧ (∀ j, j ∉ st.pending → (st.commit).1.slots[j]? = st.slots[j]?)
    ∧ (∀ p, p ∈ (st.commit).2.1
        ↔ ∃ i ∈ st.pending, ∃ s, st.slots[i]? = some s ∧ s.curr ≠ s.next
            ∧ ∃ tr, (p, tr) ∈ s.waiters ∧ (tr = none ∨ tr = some s.next))
    ∧ (∀ (track : Bool) (sp : Simulation × List Process) (acc : List Nat),
        (stepLoop track 1 sp acc).isSome = ((evalPhase sp).1.commit).2.2.1) := by
  refine ⟨rfl, rfl, commitLoop_converged st.pending st.slots, ?_, ?_, ?_, ?_⟩
  · intro i s hi hs
    rw [show (st.commit).1.slots = (Simulation.commitLoop st.slots st.pending).1 from rfl]
    rw [commitLoop_slots_mem st.pending st.slots i s hnd hi hs, slotCommit_fst]
  · intro j hj
    exact commitLoop_slots_not_mem st.pending st.slots j hj
  · intro p
    rw [show (st.commit).2.1 = (Simulation.commitLoop st.slots st.pending).2.1 from rfl]
    rw [commitLoop_awoken st.pending st.slots hnd, List.mem_flatMap]
    constructor
    · rintro ⟨i, hi, hp⟩
      cases hs : st.slots[i]? with
      | none => rw [hs] at hp; cases hp
      | some s =>
        rw [hs] at hp
        obtain ⟨hchg, tr, hmem, htr⟩ := (slotCommit_awoken_mem s p).mp hp
        exact ⟨i, hi, s, hs, hchg, tr, hmem, htr⟩
    · rintro ⟨i, hi, s, hs, hchg, tr, hmem, htr⟩
      refine ⟨i, hi, ?_⟩
      rw [hs]
      exact (slotCommit_awoken_mem s p).mpr ⟨hchg, tr, hmem, htr⟩
  · intro track sp acc
    show (stepLoop track (0 + 1) sp acc).isSome = _
    unfold stepLoop
    cases hconv : ((evalPhase sp).1.commit).2.2.1 <;> simp [hconv, stepLoop]

theorem c1_amended_witness :
    (Simulation.commit exSimPendingWaiter).1.pending = []
    ∧ (Simulation.commit exSimPendingWaiter).2.2.2 = [0]
    ∧ (Simulation.commit exSimPendingWaiter).2.2.1
        = (Simulation.commit exSimPendingWaiter).2.1.isEmpty := by
  have h := c1_amended exSimPendingWaiter (by decide)
  exact ⟨h.1, h.2.1, h.2.2.1⟩

/-! ## Lemmas about `_VCDWriter.__init__` name checking -/

theorem checkNames_whitespace (names : List (List String × String)) (scope : List String)
    (leaf : String) (hmem : (scope, leaf) ∈ names) (hws : hasWhitespace leaf = true) :
    ∃ e, checkNames names = some e := by
  induction names with
  | nil => cases hmem
  | cons n rest ih =>
    obtain ⟨sc, nm⟩ := n
    by_cases h : hasWhitespace nm
    · refine ⟨".".intercalate sc ++ "." ++ nm ++ " contains a whitespace character", ?_⟩
      simp [checkNames, h]
    · rcases List.mem_cons.mp hmem with heq | hm
      · cases heq
        exact absurd hws h
      · obtain ⟨e, he⟩ := ih hm
        exact ⟨e, by simp [checkNames, h, he]⟩

/-- C8: if any leaf alias name of a signal registered for recording contains
a whitespace character (space, tab, CR, LF — the characters matched by the
`search(r'[ \t\r\n]', var_name)` check), `_VCDWriter` setup fails with an
error, and a successfully constructed writer starts with an empty record
list — so the error precedes any value-change record. -/
theorem c8_whitespace_rejected (entries : List (Signal × List (List String × String)))
    (sig : Signal) (names : List (List String × String)) (scope : List String) (leaf : String)
    (hmem : (sig, names) ∈ entries) (hname : (scope, leaf) ∈ names)
    (hws : hasWhitespace leaf = true) :
    (∃ e, vcdWriterInit entries = Except.error e)
    ∧ (∀ (es : List (Signal × List (List String × String))) (w : Writer),
        vcdWriterInit es = Except.ok w → w.records = []) := by
  constructor
  · induction entries with
    | nil => cases hmem
    | cons ent rest ih =>
      obtain ⟨sg, nms⟩ := ent
      rcases List.mem_cons.mp hmem with heq | hm
      · cases heq
        obtain ⟨e, he⟩ := checkNames_whitespace names scope leaf hname hws
        exact ⟨e, by simp [vcdWriterInit, he]⟩
      · cases hchk : checkNames nms with
        | some e => exact ⟨e, by simp [vcdWriterInit, hchk]⟩
        | none =>
          obtain ⟨e, he⟩ := ih hm
          refine ⟨e, ?_⟩
          simp [vcdWriterInit, hchk, he]
  · intro es
    induction es with
    | nil =>
      intro w h
      cases h
      rfl
    | cons ent rest ih =>
      intro w h
      obtain ⟨sg, nms⟩ := ent
      rw [show vcdWriterInit ((sg, nms) :: rest)
          = (match checkNames nms with
             | some e => Except.error e
             | none =>
               match vcdWriterInit rest with
               | Except.error e => Except.error e
               | Except.ok w => Except.ok { w with vars := sg.sid :: w.vars }) from rfl] at h
      cases hchk : checkNames nms with
      | some e => rw [hchk] at h; cases h
      | none =>
        rw [hchk] at h
        cases hrec : vcdWriterInit rest with
        | error e => rw [hrec] at h; cases h
        | ok w' =>
          rw [hrec] at h
          cases h
          exact ih w' hrec

theorem c8_whitespace_rejected_witness :
    ∃ e, vcdWriterInit [({ sid := 0, reset := 0 }, [(["bench", "top"], "a b")])]
      = Except.error e :=
  (c8_whitespace_rejected [({ sid := 0, reset := 0 }, [(["bench", "top"], "a b")])]
    { sid := 0, reset := 0 } [(["bench", "top"], "a b")] ["bench", "top"] "a b"
    (List.mem_singleton.mpr rfl) (List.mem_singleton.mpr rfl) (by decide)).1

/-! ## Lemmas about `PySimEngine._step` and `advance` -/

theorem stepLoop_succ (track : Bool) (fuel : Nat) (sp : Simulation × List Process)
    (acc : List Nat) :
    stepLoop track (fuel + 1) sp acc
      = (if (((evalPhase sp).1.commit).2.2.1 : Bool) then
           some (((((evalPhase sp).1.commit).1, wakeProcs (evalPhase sp).2 ((evalPhase sp).1.commit).2.1)),
                 if track then ((evalPhase sp).1.commit).2.2.2.foldl setAdd acc else acc)
         else
           stepLoop track fuel
             ((((evalPhase sp).1.commit).1, wakeProcs (evalPhase sp).2 ((evalPhase sp).1.commit).2.1))
             (if track then ((evalPhase sp).1.commit).2.2.2.foldl setAdd acc else acc)) :=
  rfl

theorem stepLoop_fst_track (fuel : Nat) :
    ∀ (t₁ t₂ : Bool) (sp : Simulation × List Process) (acc₁ acc₂ : List Nat),
      (stepLoop t₁ fuel sp acc₁).map Prod.fst = (stepLoop t₂ fuel sp acc₂).map Prod.fst := by
  induction fuel with
  | zero => intro _ _ _ _ _; rfl
  | succ n ih =>
    intro t₁ t₂ sp acc₁ acc₂
    rw [stepLoop_succ, stepLoop_succ]
    cases hconv : ((evalPhase sp).1.commit).2.2.1 with
    | false =>
      simp only [hconv, Bool.false_eq_true, if_false]
      exact ih t₁ t₂ _ _ _
    | true => simp [hconv]

theorem engineStep_mk (fuel : Nat) (sim : Simulation) (procs : List Process)
    (ws : List Writer) :
    Engine.step fuel ⟨sim, procs, ws⟩
      = match stepLoop (!ws.isEmpty) fuel (sim, procs) [] with
        | none => none
        | some (sp, changed) =>
          some ⟨sp.1, sp.2, ws.map (fun wr => wr.updateAll sp.1 changed)⟩ :=
  rfl

theorem engineStep_simprocs (fuel : Nat) (sim : Simulation) (procs : List Process)
    (ws₁ ws₂ : List Writer) :
    (Engine.step fuel ⟨sim, procs, ws₁⟩).map (fun w => (w.sim, w.procs))
      = (Engine.step fuel ⟨sim, procs, ws₂⟩).map (fun w => (w.sim, w.procs)) := by
  have h := stepLoop_fst_track fuel (!ws₁.isEmpty) (!ws₂.isEmpty) (sim, procs) [] []
  rw [engineStep_mk, engineStep_mk]
  cases h₁ : stepLoop (!ws₁.isEmpty) fuel (sim, procs) [] with
  | none =>
    cases h₂ : stepLoop (!ws₂.isEmpty) fuel (sim, procs) [] with
    | none => rfl
    | some r₂ => rw [h₁, h₂] at h; cases h
  | some r₁ =>
    cases h₂ : stepLoop (!ws₂.isEmpty) fuel (sim, procs) [] with
    | none => rw [h₁, h₂] at h; cases h
    | some r₂ =>
      rw [h₁, h₂] at h
      obtain ⟨sp₁, ch₁⟩ := r₁
      obtain ⟨sp₂, ch₂⟩ := r₂
      simp only [Option.map_some', Option.some.injEq] at h
      subst h
      rfl

theorem engineAdvance_mk (fuel : Nat) (sim : Simulation) (procs : List Process)
    (ws : List Writer) :
    Engine.advance fuel ⟨sim, procs, ws⟩
      = match Engine.step fuel ⟨sim, procs, ws⟩ with
        | none => none
        | some w1 =>
          some (⟨{ w1.sim with timeline := (w1.sim.timeline.advance).1 },
                 wakeProcs w1.procs (w1.sim.timeline.advance).2.1, w1.writers⟩,
                (wakeProcs w1.procs (w1.sim.timeline.advance).2.1).any (fun p => !p.passive)) :=
  rfl

theorem engineAdvance_simprocs (fuel : Nat) (sim : Simulation) (procs : List Process)
    (ws₁ ws₂ : List Writer) :
    (Engine.advance fuel ⟨sim, procs, ws₁⟩).map (fun r => (r.1.sim, r.1.procs, r.2))
      = (Engine.advance fuel ⟨sim, procs, ws₂⟩).map (fun r => (r.1.sim, r.1.procs, r.2)) := by
  have h := engineStep_simprocs fuel sim procs ws₁ ws₂
  rw [engineAdvance_mk, engineAdvance_mk]
  cases h₁ : Engine.step fuel ⟨sim, procs, ws₁⟩ with
  | none =>
    cases h₂ : Engine.step fuel ⟨sim, procs, ws₂⟩ with
    | none => rfl
    | some w₂ => rw [h₁, h₂] at h; cases h
  | some w₁ =>
    cases h₂ : Engine.step fuel ⟨sim, procs, ws₂⟩ with
    | none => rw [h₁, h₂] at h; cases h
    | some w₂ =>
      rw [h₁, h₂] at h
      simp only [Option.map_some', Option.some.injEq, Prod.mk.injEq] at h
      obtain ⟨hsim, hprocs⟩ := h
      simp [hsim, hprocs]

theorem advanceN_succ (fuel n : Nat) (w : Engine) :
    Engine.advanceN fuel (n + 1) w
      = (Engine.advance fuel w).bind (fun r =>
          (Engine.advanceN fuel n r.1).map (fun r2 => (r2.1, r.2 :: r2.2))) :=
  rfl

/-- C9: adding or removing trace recorders never changes simulation results:
for every simulation state, process set and number `n` of `advance()` calls,
the reached simulation state, the process states, and the sequence of
returned continuation booleans are identical for any two attached writer
lists (in particular with and without a recorder).  Writers only read
committed values: the committed `(time, signal, value)` history, being a
function of the simulation-state trajectory, is therefore identical as
well. -/
theorem c9_recorder_noninterference (fuel n : Nat) :
    ∀ (sim : Simulation) (procs : List Process) (ws₁ ws₂ : List Writer),
      (Engine.advanceN fuel n ⟨sim, procs, ws₁⟩).map (fun r => (r.1.sim, r.1.procs, r.2))
        = (Engine.advanceN fuel n ⟨sim, procs, ws₂⟩).map (fun r => (r.1.sim, r.1.procs, r.2)) := by
  induction n with
  | zero => intro sim procs ws₁ ws₂; rfl
  | succ n ih =>
    intro sim procs ws₁ ws₂
    have h := engineAdvance_simprocs fuel sim procs ws₁ ws₂
    rw [advanceN_succ, advanceN_succ]
    cases h₁ : Engine.advance fuel ⟨sim, procs, ws₁⟩ with
    | none =>
      cases h₂ : Engine.advance fuel ⟨sim, procs, ws₂⟩ with
      | none => rfl
      | some r₂ => rw [h₁, h₂] at h; cases h
    | some r₁ =>
      cases h₂ : Engine.advance fuel ⟨sim, procs, ws₂⟩ with
      | none => rw [h₁, h₂] at h; cases h
      | some r₂ =>
        rw [h₁, h₂] at h
        obtain ⟨⟨s₁, p₁, wl₁⟩, b₁⟩ := r₁
        obtain ⟨⟨s₂, p₂, wl₂⟩, b₂⟩ := r₂
        simp only [Option.map_some', Option.some.injEq, Prod.mk.injEq] at h
        obtain ⟨hs, hp, hb⟩ := h
        subst hs
        subst hp
        subst hb
        have h' := ih s₁ p₁ wl₁ wl₂
        simp only [Option.some_bind]
        cases hA : Engine.advanceN fuel n ⟨s₁, p₁, wl₁⟩ with
        | none =>
          cases hB : Engine.advanceN fuel n ⟨s₁, p₁, wl₂⟩ with
          | none => rfl
          | some rB => rw [hA, hB] at h'; cases h'
        | some rA =>
          cases hB : Engine.advanceN fuel n ⟨s₁, p₁, wl₂⟩ with
          | none => rw [hA, hB] at h'; cases h'
          | some rB =>
            rw [hA, hB] at h'
            obtain ⟨⟨sA, pA, wlA⟩, bsA⟩ := rA
            obtain ⟨⟨sB, pB, wlB⟩, bsB⟩ := rB
            simp only [Option.map_some', Option.some.injEq, Prod.mk.injEq] at h'
            obtain ⟨hsA, hpA, hbsA⟩ := h'
            subst hsA
            subst hpA
            subst hbsA
            rfl

/-! ## Lemmas about the changed set and the writer update of `_step` -/

theorem setAdd_nodup (l : List Nat) (x : Nat) (h : l.Nodup) : (setAdd l x).Nodup := by
  unfold setAdd
  by_cases hm : x ∈ l
  · simpa [hm]
  · rw [if_neg hm, List.nodup_append]
    refine ⟨h, List.nodup_singleton x, ?_⟩
    intro a ha hb
    rw [List.mem_singleton] at hb
    exact hm (hb ▸ ha)

theorem foldl_setAdd_nodup (l : List Nat) :
    ∀ acc : List Nat, acc.Nodup → (l.foldl setAdd acc).Nodup := by
  induction l with
  | nil => intro acc h; exact h
  | cons x xs ih => intro acc h; exact ih _ (setAdd_nodup acc x h)

theorem mem_foldl_setAdd (l : List Nat) :
    ∀ (acc : List Nat) (i : Nat), i ∈ l.foldl setAdd acc ↔ i ∈ acc ∨ i ∈ l := by
  induction l with
  | nil => simp
  | cons x xs ih =>
    intro acc i
    rw [List.foldl_cons, ih, mem_setAdd]
    simp only [List.mem_cons]
    tauto

theorem updateAll_records (sim : Simulation) (changed : List Nat) :
    ∀ wr : Writer,
      (wr.updateAll sim changed).records
          = wr.records ++ changed.filterMap (recordFor sim wr.vars)
      ∧ (wr.updateAll sim changed).vars = wr.vars := by
  induction changed with
  | nil => intro wr; exact ⟨by simp [Writer.updateAll], rfl⟩
  | cons i rest ih =>
    intro wr
    have hstep : wr.updateAll sim (i :: rest)
        = Writer.updateAll (match sim.slots[i]? with
            | some s => wr.update sim.timeline.now s.signal s.curr
            | none => wr) sim rest := rfl
    cases h : sim.slots[i]? with
    | none =>
      have hstep2 : wr.updateAll sim (i :: rest) = wr.updateAll sim rest := by
        rw [hstep, h]
      rw [hstep2]
      obtain ⟨h1, h2⟩ := ih wr
      exact ⟨by rw [h1, List.filterMap_cons]; simp [recordFor, h], h2⟩
    | some s =>
      have hstep2 : wr.updateAll sim (i :: rest)
          = (wr.update sim.timeline.now s.signal s.curr).updateAll sim rest := by
        rw [hstep, h]
      rw [hstep2]
      by_cases hv : s.signal.sid ∈ wr.vars
      · have hupd : wr.update sim.timeline.now s.signal s.curr
            = { wr with records := wr.records ++ [(sim.timeline.now, s.signal.sid, s.curr)] } := by
          unfold Writer.update
          rw [if_pos hv]
        obtain ⟨h1, h2⟩ := ih (wr.update sim.timeline.now s.signal s.curr)
        constructor
        · rw [h1, hupd, List.filterMap_cons]
          simp only [recordFor, h, if_pos hv]
          rw [List.append_assoc]
          rfl
        · rw [h2, hupd]
      · have hupd : wr.update sim.timeline.now s.signal s.curr = wr := by
          unfold Writer.update
          rw [if_neg hv]
        obtain ⟨h1, h2⟩ := ih wr
        constructor
        · rw [hupd, h1, List.filterMap_cons]
          simp [recordFor, h, hv]
        · rw [hupd, h2]

theorem currAt_setSlot (st : Simulation) (j v i : Nat) :
    currAt (st.setSlot j v) i = currAt st i := by
  unfold Simulation.setSlot currAt
  cases h : st.slots[j]? with
  | none => rfl
  | some s =>
    by_cases hnv : s.next = v
    · simp [hnv]
    · simp only [if_neg hnv]
      by_cases hij : i = j
      · subst hij
        rw [List.getElem?_set_self', h]
        rfl
      · rw [List.getElem?_set_ne (Ne.symm hij)]

theorem currAt_addTrigger (st : Simulation) (pid j i : Nat) (tr : Option Nat) :
    currAt (st.addTrigger pid j tr) i = currAt st i := by
  unfold Simulation.addTrigger currAt
  cases h : st.slots[j]? with
  | none => rfl
  | some s =>
    simp only
    by_cases hij : i = j
    · subst hij
      rw [List.getElem?_set_self', h]
      rfl
    · rw [List.getElem?_set_ne (Ne.symm hij)]

theorem currAt_removeTrigger (st : Simulation) (pid j i : Nat) :
    currAt (st.removeTrigger pid j) i = currAt st i := by
  unfold Simulation.removeTrigger currAt
  cases h : st.slots[j]? with
  | none => rfl
  | some s =>
    simp only
    by_cases hij : i = j
    · subst hij
      rw [List.getElem?_set_self', h]
      rfl
    · rw [List.getElem?_set_ne (Ne.symm hij)]

theorem currAt_execCmd (pid : Nat) (sp : Simulation × List Process) (c : Cmd) (i : Nat) :
    currAt (execCmd pid sp c).1 i = currAt sp.1 i := by
  cases c with
  | setSig j v => exact currAt_setSlot sp.1 j v i
  | addTrigger j tr => exact currAt_addTrigger sp.1 pid j i tr
  | removeTrigger j => exact currAt_removeTrigger sp.1 pid j i
  | waitInterval d => rfl
  | setPassive b => rfl

theorem currAt_cmds (pid : Nat) (cmds : List Cmd) :
    ∀ (sp : Simulation × List Process) (i : Nat),
      currAt ((cmds.foldl (execCmd pid) sp).1) i = currAt sp.1 i := by
  induction cmds with
  | nil => intro _ _; rfl
  | cons c cs ih =>
    intro sp i
    rw [List.foldl_cons, ih, currAt_execCmd]

theorem currAt_runProc (sp : Simulation × List Process) (pid i : Nat) :
    currAt ((runProc sp pid).1) i = currAt sp.1 i := by
  unfold runProc
  cases h : sp.2[pid]? with
  | none => rfl
  | some p =>
    by_cases hr : p.runnable
    · simp only [hr, if_true]
      exact currAt_cmds pid _ _ i
    · simp [hr]

theorem currAt_foldl_runProc (l : List Nat) :
    ∀ (sp : Simulation × List Process) (i : Nat),
      currAt ((l.foldl runProc sp).1) i = currAt sp.1 i := by
  induction l with
  | nil => intro _ _; rfl
  | cons x xs ih =>
    intro sp i
    rw [List.foldl_cons, ih, currAt_runProc]

theorem currAt_evalPhase (sp : Simulation × List Process) (i : Nat) :
    currAt ((evalPhase sp).1) i = currAt sp.1 i :=
  currAt_foldl_runProc _ sp i

theorem commit_currAt_not_mem (st : Simulation) (j : Nat) (hj : j ∉ st.pending) :
    currAt (st.commit).1 j = currAt st j := by
  unfold currAt
  rw [show (st.commit).1.slots = (Simulation.commitLoop st.slots st.pending).1 from rfl,
      commitLoop_slots_not_mem st.pending st.slots j hj]

theorem stepLoop_changed_nodup (fuel : Nat) :
    ∀ (track : Bool) (sp : Simulation × List Process) (acc : List Nat)
      (r : (Simulation × List Process) × List Nat),
      stepLoop track fuel sp acc = some r → acc.Nodup → r.2.Nodup := by
  induction fuel with
  | zero => intro _ _ _ _ h; cases h
  | succ n ih =>
    intro track sp acc r h hacc
    rw [stepLoop_succ] at h
    have hacc' : (if track then ((evalPhase sp).1.commit).2.2.2.foldl setAdd acc else acc).Nodup := by
      cases track with
      | false => simpa
      | true => simpa using foldl_setAdd_nodup _ acc hacc
    cases hconv : ((evalPhase sp).1.commit).2.2.1 with
    | true =>
      rw [hconv] at h
      simp only [if_true] at h
      cases h
      exact hacc'
    | false =>
      rw [hconv] at h
      simp only [Bool.false_eq_true, if_false] at h
      exact ih track _ _ r h hacc'

theorem stepLoop_changed_covers (fuel : Nat) :
    ∀ (sp : Simulation × List Process) (acc : List Nat)
      (r : (Simulation × List Process) × List Nat),
      stepLoop true fuel sp acc = some r →
      ∀ i, (i ∈ acc → i ∈ r.2) ∧ (currAt r.1.1 i ≠ currAt sp.1 i → i ∈ r.2) := by
  induction fuel with
  | zero => intro _ _ _ h; cases h
  | succ n ih =>
    intro sp acc r h i
    rw [stepLoop_succ] at h
    have hmem : ∀ j, j ∈ ((evalPhase sp).1.commit).2.2.2.foldl setAdd acc
        ↔ j ∈ acc ∨ j ∈ ((evalPhase sp).1.commit).2.2.2 := fun j =>
      mem_foldl_setAdd _ acc j
    have hframe : i ∉ ((evalPhase sp).1.commit).2.2.2 →
        currAt ((evalPhase sp).1.commit).1 i = currAt sp.1 i := by
      intro hni
      rw [show ((evalPhase sp).1.commit).2.2.2 = (evalPhase sp).1.pending from rfl] at hni
      rw [commit_currAt_not_mem (evalPhase sp).1 i hni, currAt_evalPhase]
    cases hconv : ((evalPhase sp).1.commit).2.2.1 with
    | true =>
      rw [hconv] at h
      simp only [if_true] at h
      cases h
      constructor
      · intro hia
        exact (hmem i).mpr (Or.inl hia)
      · intro hch
        by_cases hni : i ∈ ((evalPhase sp).1.commit).2.2.2
        · exact (hmem i).mpr (Or.inr hni)
        · exact absurd (hframe hni) hch
    | false =>
      rw [hconv] at h
      simp only [Bool.false_eq_true, if_false] at h
      have hrec := ih _ _ r h
      constructor
      · intro hia
        exact (hrec i).1 ((hmem i).mpr (Or.inl hia))
      · intro hch
        by_cases heq : currAt r.1.1 i
            = currAt (((evalPhase sp).1.commit).1, wakeProcs (evalPhase sp).2 ((evalPhase sp).1.commit).2.1).1 i
        · by_cases hni : i ∈ ((evalPhase sp).1.commit).2.2.2
          · exact (hrec i).1 ((hmem i).mpr (Or.inr hni))
          · exact absurd (heq.trans (hframe hni)) hch
        · exact (hrec i).2 heq

/-- C4 counterexample: a runnable process writes `1` then writes `0` back to
a clean slot within one eval phase; the commit changes nothing, yet the
attached writer appends one value-change record for the slot — refuting "no
record is appended for a signal whose committed value did not change". -/
theorem c4_counterexample :
    Engine.step 1 exEngineWriteBack = some exEngineWriteBackStepped
    ∧ exEngineWriteBackStepped.writers.map (fun wr => wr.records) = [[(0, 0, 0)]]
    ∧ currAt exEngineWriteBackStepped.sim 0 = currAt exEngineWriteBack.sim 0 := by decide

/-- C4 (amended): when trace recording is active, after delta-cycle
convergence each attached writer appends, in order, exactly one
value-change record per slot of the step's changed set whose signal has a
registered variable (at the current time, with the final committed value) —
where the changed set is the duplicate-free union of the pending sets seen
at the commits of this instant.  Every slot whose committed value changed
during the instant is in the changed set, but the changed set may also
contain slots whose committed value did not change (a slot written and then
written back), which therefore also receive one record. -/
theorem c4_amended (fuel : Nat) (w w' : Engine) (h : Engine.step fuel w = some w')
    (hw : w.writers.isEmpty = false) :
    ∃ (sp : Simulation × List Process) (changed : List Nat),
      stepLoop true fuel (w.sim, w.procs) [] = some (sp, changed)
      ∧ changed.Nodup
      ∧ w'.sim = sp.1
      ∧ w'.procs = sp.2
      ∧ w'.writers = w.writers.map (fun wr =>
          { wr with records := wr.records ++ changed.filterMap (recordFor sp.1 wr.vars) })
      ∧ (∀ i, currAt sp.1 i ≠ currAt w.sim i → i ∈ changed) := by
  have hstep : Engine.step fuel w
      = match stepLoop (!w.writers.isEmpty) fuel (w.sim, w.procs) [] with
        | none => none
        | some (sp, changed) =>
          some ⟨sp.1, sp.2, w.writers.map (fun wr => wr.updateAll sp.1 changed)⟩ := rfl
  rw [hstep, hw] at h
  simp only [Bool.not_false] at h
  cases hsl : stepLoop true fuel (w.sim, w.procs) [] with
  | none => rw [hsl] at h; cases h
  | some r =>
    obtain ⟨sp, changed⟩ := r
    rw [hsl] at h
    cases h
    refine ⟨sp, changed, rfl, stepLoop_changed_nodup fuel true _ [] _ hsl (List.nodup_nil), rfl, rfl,
      ?_, ?_⟩
    · refine List.map_eq_map_iff.mpr (fun wr _ => ?_)
      obtain ⟨h1, h2⟩ := updateAll_records sp.1 changed wr
      cases hres : wr.updateAll sp.1 changed with
      | mk v rcs =>
        rw [hres] at h1 h2
        simp only at h1 h2
        rw [h1, h2]
    · intro i hch
      exact (stepLoop_changed_covers fuel (w.sim, w.procs) [] (sp, changed) hsl i).2 hch

theorem c4_amended_witness :
    ∃ (sp : Simulation × List Process) (changed : List Nat),
      stepLoop true 1 (exEngineWriteBack.sim, exEngineWriteBack.procs) [] = some (sp, changed)
      ∧ changed.Nodup := by
  obtain ⟨sp, changed, h1, h2, _⟩ :=
    c4_amended 1 exEngineWriteBack exEngineWriteBackStepped (by decide) (by decide)
  exact ⟨sp, changed, h1, h2⟩

/-! ## Lemmas about `_Timeline.advance` -/

theorem minDeadline_cons (a : Nat) (d : Option Nat) (rest : List (Nat × Option Nat)) :
    minDeadline ((a, d) :: rest)
      = match d, minDeadline rest with
        | none, r => r
        | some dv, none => some dv
        | some dv, some m => some (min dv m) :=
  rfl

theorem minDeadline_none_all (L : List (Nat × Option Nat)) :
    minDeadline L = none → ∀ x ∈ L, x.2 = none := by
  induction L with
  | nil => intro _ x hx; cases hx
  | cons q rest ih =>
    intro h x hx
    obtain ⟨a, b⟩ := q
    rw [minDeadline_cons] at h
    cases b with
    | none =>
      rcases List.mem_cons.mp hx with heq | hm
      · rw [heq]
      · exact ih h x hm
    | some dv =>
      cases hmr : minDeadline rest with
      | none => rw [hmr] at h; cases h
      | some m => rw [hmr] at h; cases h

theorem minDeadline_le (L : List (Nat × Option Nat)) :
    ∀ k, minDeadline L = some k → ∀ x ∈ L, ∀ d, x.2 = some d → k ≤ d := by
  induction L with
  | nil => intro k hk; cases hk
  | cons q rest ih =>
    intro k hk x hx d hd
    obtain ⟨a, b⟩ := q
    rw [minDeadline_cons] at hk
    rcases List.mem_cons.mp hx with heq | hmem
    · subst heq
      cases b with
      | none => cases hd
      | some dv =>
        have hdv : dv = d := by injection hd
        subst hdv
        cases hmr : minDeadline rest with
        | none =>
          rw [hmr] at hk
          injection hk with hk
          omega
        | some m =>
          rw [hmr] at hk
          injection hk with hk
          rw [← hk]
          exact min_le_left dv m
    · cases b with
      | none => exact ih k hk x hmem d hd
      | some dv =>
        cases hmr : minDeadline rest with
        | none =>
          have := minDeadline_none_all rest hmr x hmem
          rw [hd] at this
          cases this
        | some m =>
          rw [hmr] at hk
          injection hk with hk
          have hmd : m ≤ d := ih m hmr x hmem d hd
          rw [← hk]
          exact le_trans (min_le_right dv m) hmd

theorem minDeadline_mem (L : List (Nat × Option Nat)) :
    ∀ k, minDeadline L = some k → ∃ x ∈ L, x.2 = some k := by
  induction L with
  | nil => intro k h; cases h
  | cons q rest ih =>
    intro k h
    obtain ⟨a, b⟩ := q
    rw [minDeadline_cons] at h
    cases b with
    | none =>
      obtain ⟨x, hx, h2⟩ := ih k h
      exact ⟨x, List.mem_cons_of_mem _ hx, h2⟩
    | some dv =>
      cases hmr : minDeadline rest with
      | none =>
        rw [hmr] at h
        injection h with h
        exact ⟨(a, some dv), List.mem_cons_self _ _, by rw [h]⟩
      | some m =>
        rw [hmr] at h
        injection h with h
        by_cases hdm : dv ≤ m
        · refine ⟨(a, some dv), List.mem_cons_self _ _, ?_⟩
          rw [← h, min_eq_left hdm]
        · obtain ⟨x, hx, h2⟩ := ih m hmr
          refine ⟨x, List.mem_cons_of_mem _ hx, ?_⟩
          rw [h2, ← h, min_eq_right (le_of_not_le hdm)]

theorem filter_deadline_nil (L : List (Nat × Option Nat)) (k d : Nat)
    (hmin : minDeadline L = some k) (hd : d < k) :
    L.filter (fun kv => kv.2 == some d) = [] := by
  rw [List.filter_eq_nil_iff]
  intro x hx
  cases hb : x.2 with
  | none => simp [hb]
  | some dx =>
    have := minDeadline_le L k hmin x hx dx hb
    simp only [hb, beq_iff_eq, Option.some.injEq]
    omega

theorem advanceScan_cons_none (now a : Nat) (rest : List (Nat × Option Nat))
    (acc : List Nat) (nd : Option Nat) :
    Timeline.advanceScan now ((a, none) :: rest) acc nd
      = ((if nd.isSome then [] else acc) ++ [a], some now) :=
  rfl

theorem advanceScan_cons_some (now a d : Nat) (rest : List (Nat × Option Nat))
    (acc : List Nat) (m : Nat) :
    Timeline.advanceScan now ((a, some d) :: rest) acc (some m)
      = if d ≤ m then
          Timeline.advanceScan now rest ((if d < m then [] else acc) ++ [a]) (some d)
        else Timeline.advanceScan now rest acc (some m) :=
  rfl

theorem advanceScan_cons_some_none (now a d : Nat) (rest : List (Nat × Option Nat))
    (acc : List Nat) :
    Timeline.advanceScan now ((a, some d) :: rest) acc none
      = Timeline.advanceScan now rest (acc ++ [a]) (some d) :=
  rfl

theorem advanceScan_break (now p : Nat) (post : List (Nat × Option Nat)) :
    ∀ (pre : List (Nat × Option Nat)) (acc : List Nat) (m : Nat),
      (∀ x ∈ pre, x.2 ≠ none) →
      Timeline.advanceScan now (pre ++ (p, none) :: post) acc (some m) = ([p], some now) := by
  intro pre
  induction pre with
  | nil =>
    intro acc m _
    rw [List.nil_append, advanceScan_cons_none]
    rfl
  | cons q pre ih =>
    intro acc m hnum
    obtain ⟨a, b⟩ := q
    cases b with
    | none => exact absurd rfl (hnum (a, none) (List.mem_cons_self _ _))
    | some d =>
      rw [List.cons_append, advanceScan_cons_some]
      have hnum' : ∀ x ∈ pre, x.2 ≠ none := fun x hx => hnum x (List.mem_cons_of_mem _ hx)
      by_cases hdm : d ≤ m
      · rw [if_pos hdm]
        exact ih _ _ hnum'
      · rw [if_neg hdm]
        exact ih _ _ hnum'

theorem advanceScan_zero_delay (now p : Nat) (post pre : List (Nat × Option Nat))
    (hpre : ∀ x ∈ pre, x.2 ≠ none) :
    Timeline.advanceScan now (pre ++ (p, none) :: post) [] none = ([p], some now) := by
  cases pre with
  | nil =>
    rw [List.nil_append, advanceScan_cons_none]
    rfl
  | cons q pre' =>
    obtain ⟨a, b⟩ := q
    cases b with
    | none => exact absurd rfl (hpre (a, none) (List.mem_cons_self _ _))
    | some d =>
      rw [List.cons_append, advanceScan_cons_some_none, List.nil_append]
      exact advanceScan_break now p post pre' [a] d
        (fun x hx => hpre x (List.mem_cons_of_mem _ hx))

theorem filter_cons_beq_false (a d k : Nat) (rest : List (Nat × Option Nat)) (h : d ≠ k) :
    ((a, some d) :: rest).filter (fun kv => kv.2 == some k)
      = rest.filter (fun kv => kv.2 == some k) := by
  rw [List.filter_cons]
  simp [h]

theorem filter_cons_beq_true (a d : Nat) (rest : List (Nat × Option Nat)) :
    ((a, some d) :: rest).filter (fun kv => kv.2 == some d)
      = (a, some d) :: rest.filter (fun kv => kv.2 == some d) := by
  rw [List.filter_cons]
  simp

theorem advanceScan_numeric (now : Nat) (L : List (Nat × Option Nat)) :
    ∀ (acc : List Nat) (m : Nat), (∀ x ∈ L, x.2 ≠ none) →
      Timeline.advanceScan now L acc (some m)
        = match minDeadline L with
          | none => (acc, some m)
          | some k =>
            if k < m then ((L.filter (fun kv => kv.2 == some k)).map Prod.fst, some k)
            else if k = m then
              (acc ++ (L.filter (fun kv => kv.2 == some m)).map Prod.fst, some m)
            else (acc, some m) := by
  induction L with
  | nil => intro acc m _; rfl
  | cons q rest ih =>
    intro acc m hnum
    obtain ⟨a, b⟩ := q
    cases b with
    | none => exact absurd rfl (hnum _ (List.mem_cons_self _ _))
    | some d =>
      have hnum' : ∀ x ∈ rest, x.2 ≠ none := fun x hx => hnum x (List.mem_cons_of_mem _ hx)
      rw [advanceScan_cons_some]
      cases hmr : minDeadline rest with
      | none =>
        have hrest : rest = [] := by
          cases rest with
          | nil => rfl
          | cons r rs =>
            exact absurd (minDeadline_none_all _ hmr r (List.mem_cons_self _ _))
              (hnum' r (List.mem_cons_self _ _))
        subst hrest
        have hmin : minDeadline [(a, some d)] = some d := rfl
        rw [hmin]
        dsimp only
        by_cases h1 : d < m
        · rw [if_pos (le_of_lt h1), if_pos h1, if_pos h1, filter_cons_beq_true]
          rfl
        · by_cases h2 : d = m
          · subst h2
            rw [if_pos (le_refl d), if_neg h1, if_neg (lt_irrefl d), if_pos rfl,
              filter_cons_beq_true]
            rfl
          · have h3 : ¬ d ≤ m := by omega
            rw [if_neg h3, if_neg h1, if_neg h2]
            rfl
      | some mr =>
        have hmin : minDeadline ((a, some d) :: rest) = some (min d mr) := by
          rw [minDeadline_cons, hmr]
        rw [hmin]
        dsimp only
        by_cases hdm : d ≤ m
        · rw [if_pos hdm, ih _ d hnum', hmr]
          dsimp only
          rcases Nat.lt_trichotomy mr d with hmd | hmd | hmd
          · have e1 : min d mr = mr := min_eq_right (le_of_lt hmd)
            have e2 : mr < m := lt_of_lt_of_le hmd hdm
            simp only [if_pos hmd, e1, if_pos e2,
              filter_cons_beq_false a d mr rest (by omega)]
          · subst hmd
            simp only [min_self, lt_self_iff_false, if_false, eq_self_iff_true, if_true,
              filter_cons_beq_true, List.map_cons]
            by_cases h1 : mr < m
            · simp only [if_pos h1, List.nil_append, List.singleton_append]
            · have h2 : mr = m := by omega
              subst h2
              simp only [lt_self_iff_false, if_false, eq_self_iff_true, if_true,
                filter_cons_beq_true, List.map_cons, List.append_assoc,
                List.singleton_append]
          · have e1 : min d mr = d := min_eq_left (le_of_lt hmd)
            simp only [if_neg (show ¬ mr < d by omega), if_neg (show ¬ mr = d by omega), e1]
            by_cases h1 : d < m
            · simp only [if_pos h1, filter_cons_beq_true, List.map_cons,
                filter_deadline_nil rest mr d hmr hmd, List.map_nil, List.nil_append]
            · have h2 : d = m := by omega
              subst h2
              simp only [lt_self_iff_false, if_false, eq_self_iff_true, if_true,
                filter_cons_beq_true, List.map_cons,
                filter_deadline_nil rest mr d hmr hmd, List.map_nil]
        · rw [if_neg hdm, ih acc m hnum', hmr]
          dsimp only
          have hmd' : m < d := by omega
          rcases Nat.lt_trichotomy mr m with hm1 | hm1 | hm1
          · have e1 : min d mr = mr := min_eq_right (by omega)
            simp only [if_pos hm1, e1,
              filter_cons_beq_false a d mr rest (by omega)]
          · subst hm1
            have e1 : min d mr = mr := min_eq_right (le_of_lt hmd')
            simp only [lt_self_iff_false, if_false, eq_self_iff_true, if_true, e1,
              filter_cons_beq_false a d mr rest (by omega)]
          · have hlt : m < min d mr := lt_min hmd' hm1
            simp only [if_neg (show ¬ mr < m by omega), if_neg (show ¬ mr = m by omega),
              if_neg (show ¬ min d mr < m by omega), if_neg (show ¬ min d mr = m by omega)]

theorem advanceScan_numeric_top (now : Nat) (L : List (Nat × Option Nat)) (m : Nat)
    (hnum : ∀ x ∈ L, x.2 ≠ none) (hmin : minDeadline L = some m) :
    Timeline.advanceScan now L [] none
      = ((L.filter (fun kv => kv.2 == some m)).map Prod.fst, some m) := by
  cases L with
  | nil => cases hmin
  | cons q rest =>
    obtain ⟨a, b⟩ := q
    cases b with
    | none => exact absurd rfl (hnum _ (List.mem_cons_self _ _))
    | some d =>
      have hnum' : ∀ x ∈ rest, x.2 ≠ none := fun x hx => hnum x (List.mem_cons_of_mem _ hx)
      rw [advanceScan_cons_some_none, List.nil_append,
        advanceScan_numeric now rest [a] d hnum']
      cases hmr : minDeadline rest with
      | none =>
        have hrest : rest = [] := by
          cases rest with
          | nil => rfl
          | cons r rs =>
            exact absurd (minDeadline_none_all _ hmr r (List.mem_cons_self _ _))
              (hnum' r (List.mem_cons_self _ _))
        subst hrest
        have hdm : d = m := by
          have : minDeadline [(a, some d)] = some d := rfl
          rw [this] at hmin
          injection hmin
        subst hdm
        dsimp only
        rw [filter_cons_beq_true]
        rfl
      | some mr =>
        have hm : min d mr = m := by
          rw [minDeadline_cons, hmr] at hmin
          injection hmin
        dsimp only
        rcases Nat.lt_trichotomy mr d with hmd | hmd | hmd
        · have e1 : mr = m := by rw [← hm, min_eq_right (le_of_lt hmd)]
          subst e1
          simp only [if_pos hmd, filter_cons_beq_false a d mr rest (by omega)]
        · subst hmd
          have e1 : mr = m := by rw [← hm, min_self]
          subst e1
          simp only [lt_self_iff_false, if_false, eq_self_iff_true, if_true,
            filter_cons_beq_true, List.map_cons, List.singleton_append]
        · have e1 : d = m := by rw [← hm, min_eq_left (le_of_lt hmd)]
          subst e1
          simp only [if_neg (show ¬ mr < d by omega), if_neg (show ¬ mr = d by omega),
            filter_cons_beq_true, List.map_cons,
            filter_deadline_nil rest mr d hmr hmd, List.map_nil]

theorem timelineAdvance_eq (t : Timeline) :
    t.advance
      = if (Timeline.advanceScan t.now t.deadlines [] none).1.isEmpty then (t, [], false)
        else ({ now := (Timeline.advanceScan t.now t.deadlines [] none).2.getD t.now,
                deadlines := t.deadlines.filter
                  (fun kv => !(Timeline.advanceScan t.now t.deadlines [] none).1.contains kv.1) },
              (Timeline.advanceScan t.now t.deadlines [] none).1, true) :=
  rfl

/-- C3 counterexample: a timeline with two zero-delay registrations
(processes 0 and 1): one `advance()` call wakes **only the first** of them —
the loop breaks at the first `None` deadline — refuting "every
zero-delay-registered process is woken together in that single call". -/
theorem c3_counterexample :
    exTimelineTwoSettles.deadlines = [(0, none), (1, none)]
    ∧ (Timeline.advance exTimelineTwoSettles).2.1 = [0]
    ∧ (1 : Nat) ∉ (Timeline.advance exTimelineTwoSettles).2.1 := by decide

/-- C3 (amended): whenever a zero-delay registration exists, a single
`advance()` call wakes exactly the **first** zero-delay registration in the
dict's insertion order (removing it), wakes no finite-deadline process, and
leaves `now` unchanged; the remaining zero-delay registrations wait for
later calls.  Only when no zero-delay registration exists does it wake
every process registered at exactly the minimum numeric deadline and set
`now` to that deadline. -/
theorem c3_amended :
    (∀ (t : Timeline) (pre post : List (Nat × Option Nat)) (p : Nat),
      t.deadlines = pre ++ (p, none) :: post →
      (∀ x ∈ pre, x.2 ≠ none) →
      (t.advance).2.1 = [p]
      ∧ (t.advance).1.now = t.now
      ∧ (t.advance).2.2 = true
      ∧ (t.advance).1.deadlines = t.deadlines.filter (fun kv => decide (¬ kv.1 = p)))
    ∧ (∀ (t : Timeline) (m : Nat),
      (∀ x ∈ t.deadlines, x.2 ≠ none) →
      minDeadline t.deadlines = some m →
      (t.advance).2.1 = (t.deadlines.filter (fun kv => kv.2 == some m)).map Prod.fst
      ∧ (t.advance).1.now = m
      ∧ (t.advance).2.2 = true) := by
  constructor
  · intro t pre post p hdl hpre
    have hscan : Timeline.advanceScan t.now t.deadlines [] none = ([p], some t.now) := by
      rw [hdl]
      exact advanceScan_zero_delay t.now p post pre hpre
    rw [timelineAdvance_eq, hscan]
    refine ⟨rfl, rfl, rfl, ?_⟩
    show t.deadlines.filter (fun kv => !(([p] : List Nat).contains kv.1))
        = t.deadlines.filter (fun kv => decide (¬ kv.1 = p))
    refine List.filter_congr (fun kv _ => ?_)
    simp [eq_comm]
  · intro t m hnum hmin
    have hscan := advanceScan_numeric_top t.now t.deadlines m hnum hmin
    rw [timelineAdvance_eq, hscan]
    have hne : (t.deadlines.filter (fun kv => kv.2 == some m)).map Prod.fst ≠ [] := by
      obtain ⟨x, hx, hxm⟩ := minDeadline_mem t.deadlines m hmin
      intro hcon
      rw [List.map_eq_nil_iff] at hcon
      have : x ∈ t.deadlines.filter (fun kv => kv.2 == some m) := by
        rw [List.mem_filter]
        exact ⟨hx, by simp [hxm]⟩
      rw [hcon] at this
      cases this
    rw [if_neg (by simpa using hne)]
    exact ⟨rfl, rfl, rfl⟩

theorem c3_amended_witness :
    (Timeline.advance { now := 3, deadlines := [(2, none)] }).2.1 = [2]
    ∧ (Timeline.advance { now := 3, deadlines := [(2, none)] }).1.now = 3
    ∧ (Timeline.advance { now := 0, deadlines := [(5, some 7), (6, some 7), (7, some 9)] }).2.1
        = [5, 6]
    ∧ (Timeline.advance { now := 0, deadlines := [(5, some 7), (6, some 7), (7, some 9)] }).1.now
        = 7 := by
  have hA := c3_amended.1 { now := 3, deadlines := [(2, none)] } [] [] 2 rfl (by simp)
  have hB := c3_amended.2 { now := 0, deadlines := [(5, some 7), (6, some 7), (7, some 9)] } 7
    (by decide) (by decide)
  refine ⟨hA.1, hA.2.1, ?_, hB.2.1⟩
  rw [hB.1]
  decide

end ToriiSim
